import Mathlib

/-!
Shallow embedding of the `pdf_word_frequency_analyzer` repository
(`src/analyzer/filters.py`, `src/analyzer/processor.py`, `src/analyzer/reader.py`).

Modelling conventions:
* A word is a `String`; a frequency map (Python `dict`, insertion ordered) is a
  `List (String × Nat)`.
* The external language detector (`langdetect.detect`), which may raise, is a
  parameter `detectRaw : String → Except String String`; `Except.error` models a
  raised exception.
* The external PDF extraction (`pypdf`) is a parameter
  `extract : String → Except String String`; `Except.error` models a
  whole-document extraction failure.
* Thread/process pools: `executor.map` (processor.py line 104) is
  order-preserving, so the CPU phase is `List.map` + `List.join`; the I/O thread
  pool of reader.py appends to a shared list in a nondeterministic completion
  order, modelled by an explicit schedule (a permutation of the file indices).
* Python `float("inf")` as an upper frequency bound is modelled by
  `none : Option Int` (no upper bound).
-/

namespace PdfWordFrequency

/-! ### filters.py -/

/-- filters.py lines 13-27: `_detect_language_cached`.  The `lru_cache` only
memoizes (pure function, no observable effect); the `try/except` around
`detect(word)` maps any raised exception to `None`. -/
def _detect_language_cached (detectRaw : String → Except String String)
    (word : String) : Option String :=
  match detectRaw word with
  | Except.ok code => some code
  | Except.error _ => none

/-- filters.py lines 30-47: `filter_word_by_language`. -/
def filter_word_by_language (detectRaw : String → Except String String)
    (word : String) (target_lang_codes : List String) : Bool :=
  if word.length < 3 then
    false
  else
    match _detect_language_cached detectRaw word with
    | none => false
    | some detected_lang => target_lang_codes.contains detected_lang

/-- Python truthiness of the optional list `target_lang_codes`
(`bool(target_lang_codes)` in filters.py line 72): `None` and `[]` are falsy. -/
def hasLangFilter : Option (List String) → Bool
  | none => false
  | some ts => !ts.isEmpty

/-- filters.py lines 50-86: `filter_word_list`.  The loop with `continue` is a
filter: a word is skipped when excluded or shorter than 2, then skipped when a
language filter is active and `filter_word_by_language` rejects it; survivors
are appended in input order. -/
def filter_word_list (detectRaw : String → Except String String)
    (raw_words : List String) (excluded_set : List String)
    (target_lang_codes : Option (List String)) : List String :=
  match raw_words with
  | [] => []
  | word :: rest =>
    if excluded_set.contains word ∨ word.length < 2 then
      filter_word_list detectRaw rest excluded_set target_lang_codes
    else if hasLangFilter target_lang_codes &&
        !filter_word_by_language detectRaw word (target_lang_codes.getD []) then
      filter_word_list detectRaw rest excluded_set target_lang_codes
    else
      word :: filter_word_list detectRaw rest excluded_set target_lang_codes

/-- filters.py lines 89-107: `filter_by_frequency_range`.  `min_freq` and
`max_freq` are the caller-supplied numeric bounds; `max_freq = none` models the
caller passing `float("inf")` (processor.py line 120). -/
def filter_by_frequency_range (frequency_dict : List (String × Nat))
    (min_freq : Int) (max_freq : Option Int) : List (String × Nat) :=
  frequency_dict.filter fun p =>
    decide (min_freq ≤ (p.2 : Int)) &&
      (match max_freq with
       | none => true
       | some m => decide ((p.2 : Int) ≤ m))

/-- filters.py lines 110-126: `filter_by_exact_frequency`; `set(exact_freqs)`
is modelled by de-duplicating the list (membership is unchanged). -/
def filter_by_exact_frequency (frequency_dict : List (String × Nat))
    (exact_freqs : List Nat) : List (String × Nat) :=
  let exact_freqs_set := exact_freqs.dedup
  frequency_dict.filter fun p => exact_freqs_set.contains p.2

/-- Keys of `Counter(words)` in Python iteration order: the distinct words in
first-occurrence order. -/
def foStep (acc : List String) (w : String) : List String :=
  if acc.contains w then acc else acc ++ [w]

/-- Distinct words of a list, first occurrence first. -/
def firstOccurrences (words : List String) : List String :=
  words.foldl foStep []

/-- filters.py lines 129-139: `count_frequencies` = `dict(Counter(words))`:
one entry per distinct word (first-occurrence order), value = occurrence
count. -/
def count_frequencies (words : List String) : List (String × Nat) :=
  (firstOccurrences words).map fun w => (w, words.count w)

/-! ### processor.py, CPU phase (lines 92-125) -/

/-- Fuel-driven worker for `chunksOf`; the fuel is an upper bound on the number
of chunks (each chunk consumes at least one element). -/
def chunksOfAux : Nat → Nat → List String → List (List String)
  | 0, _, _ => []
  | _ + 1, _, [] => []
  | fuel + 1, cs, a :: l =>
    (a :: List.take (cs - 1) l) :: chunksOfAux fuel cs (List.drop (cs - 1) l)

/-- Python slicing `[l[i : i + cs] for i in range(0, len(l), cs)]` for `cs ≥ 1`
(processor.py lines 95-97). -/
def chunksOf (cs : Nat) (l : List String) : List (List String) :=
  chunksOfAux l.length cs l

/-- processor.py lines 92-97: chunking of the tokenized word list.
`num_processes` is `max_workers_cpu or os.cpu_count() or 4`;
`chunk_size = max(1, len(raw_words) // num_processes + 1)`. -/
def word_chunks (raw_words : List String) (num_processes : Nat) :
    List (List String) :=
  chunksOf (max 1 (raw_words.length / num_processes + 1)) raw_words

/-- processor.py lines 99-105: build one argument tuple per chunk, run
`executor.map(filter_word_list, arguments)` (order-preserving) and flatten with
`itertools.chain.from_iterable`. -/
def parallel_filtered_words (detectRaw : String → Except String String)
    (raw_words : List String) (excluded_set : List String)
    (target_lang_codes : Option (List String)) (num_processes : Nat) :
    List String :=
  ((word_chunks raw_words num_processes).map fun chunk =>
    filter_word_list detectRaw chunk excluded_set target_lang_codes).flatten

/-- Whether processor.py lines 116-121 apply any frequency filter:
`if exact_freqs: ... elif min_freq is not None or max_freq is not None: ...`. -/
def freqFilterActive (min_freq max_freq : Option Int)
    (exact_freqs : Option (List Nat)) : Bool :=
  (match exact_freqs with
   | some es => !es.isEmpty
   | none => false) || min_freq.isSome || max_freq.isSome

/-- processor.py lines 115-123 (Phase 3): dispatch on the frequency-filter
variant; `min_f` defaults to 0, `max_f` to `float("inf")` (`none`). -/
def apply_frequency_filter (word_frequency : List (String × Nat))
    (min_freq max_freq : Option Int) (exact_freqs : Option (List Nat)) :
    List (String × Nat) :=
  if (match exact_freqs with
      | some es => !es.isEmpty
      | none => false) then
    filter_by_exact_frequency word_frequency (exact_freqs.getD [])
  else if min_freq.isSome || max_freq.isSome then
    filter_by_frequency_range word_frequency (min_freq.getD 0) max_freq
  else
    word_frequency

/-- processor.py lines 84-125: the pipeline from the tokenized word list to the
returned pair `(total_valid_word_count, final_frequency)`. -/
def pipeline_core (detectRaw : String → Except String String)
    (raw_words : List String) (excluded_set : List String)
    (target_lang_codes : Option (List String))
    (min_freq max_freq : Option Int) (exact_freqs : Option (List Nat))
    (num_processes : Nat) : Nat × List (String × Nat) :=
  let filtered_words :=
    parallel_filtered_words detectRaw raw_words excluded_set target_lang_codes
      num_processes
  let total_valid_word_count := filtered_words.length
  let word_frequency := count_frequencies filtered_words
  (total_valid_word_count,
    apply_frequency_filter word_frequency min_freq max_freq exact_freqs)

/-- Sum of the values of a frequency map. -/
def sumValues (frequency_dict : List (String × Nat)) : Nat :=
  (frequency_dict.map Prod.snd).sum

/-! ### reader.py -/

/-- The fragment of the file system that `find_pdf_files` consults. -/
structure FileSystem where
  isFile : String → Bool
  isDir : String → Bool
  listDir : String → List String

/-- reader.py lines 12-37: `find_pdf_files`.  `os.path.abspath` /
`os.path.join` are modelled as the identity (paths are abstract strings);
`Except.error` models the raised `ValueError`. -/
def find_pdf_files (fs : FileSystem) (input_path : String) :
    Except String (List String) :=
  if fs.isFile input_path && (input_path.toLower).endsWith ".pdf" then
    Except.ok [input_path]
  else if fs.isDir input_path then
    Except.ok ((fs.listDir input_path).filter fun entry =>
      (entry.toLower).endsWith ".pdf")
  else
    Except.error ("Invalid input path or file type: " ++ input_path)

/-- The shared mutable state of the I/O phase: the lock-protected list of
extracted texts and the lock-protected progress counter. -/
structure IngestState where
  texts : List String
  counter : Nat

/-- reader.py lines 40-98: `_read_single_pdf` on one path.  On success the text
is appended and the counter advances; on a whole-document failure nothing is
appended but the counter still advances (lines 90-98). -/
def read_single_pdf (extract : String → Except String String)
    (pdf_file_path : String) (st : IngestState) : IngestState :=
  match extract pdf_file_path with
  | Except.ok text => { texts := st.texts ++ [text], counter := st.counter + 1 }
  | Except.error _ => { texts := st.texts, counter := st.counter + 1 }

/-- reader.py lines 111-155: `read_pdfs_in_parallel`, returning the joined text
and the final progress-counter value.  The thread pool completes the submitted
tasks in a nondeterministic order; `sched` lists the indices of
`pdf_file_paths` in completion order (a permutation of the indices).  An empty
path list returns immediately (line 127-128) before the pool is created. -/
def read_pdfs_in_parallel_sched (extract : String → Except String String)
    (pdf_file_paths : List String) (sched : List Nat) : String × Nat :=
  if pdf_file_paths.isEmpty then
    ("", 0)
  else
    let final := sched.foldl
      (fun st i => read_single_pdf extract (pdf_file_paths.getD i "") st)
      ⟨[], 0⟩
    (String.intercalate " " final.texts, final.counter)

/-! ### processor.py, orchestration (lines 22-125) -/

/-- A Python `\w` word character (ASCII fragment of the Unicode class; no claim
depends on the exact character class). -/
def isWordChar (c : Char) : Bool :=
  c.isAlphanum || c == '_'

/-- Worker for `tokenize`: accumulates the current run of word characters
(reversed) and emits maximal nonempty runs. -/
def tokenizeAux : List Char → List Char → List String
  | acc, [] => if acc.isEmpty then [] else [String.mk acc.reverse]
  | acc, c :: cs =>
    if isWordChar c then
      tokenizeAux (c :: acc) cs
    else if acc.isEmpty then
      tokenizeAux [] cs
    else
      String.mk acc.reverse :: tokenizeAux [] cs

/-- processor.py line 87: `re.findall(r"\b\w+\b", text)` = the maximal nonempty
runs of word characters, in order. -/
def tokenize (s : String) : List String :=
  tokenizeAux [] s.toList

/-- processor.py lines 22-125: `calculate_word_frequency_and_filter`.
Phase 0 (discovery) returns `(0, {})` on a discovery error or when no PDF is
found; phase 1 reads the PDFs and returns `(0, {})` when the corpus is empty or
whitespace-only (`if not all_text.strip()`); phases 2-3 are `pipeline_core`
on the lowercased, tokenized corpus with the lowercased exclusion set. -/
def calculate_word_frequency_and_filter (fs : FileSystem)
    (extract : String → Except String String)
    (detectRaw : String → Except String String) (sched : List Nat)
    (input_path : String) (excluded_words : List String)
    (target_lang_codes : Option (List String))
    (min_freq max_freq : Option Int) (exact_freqs : Option (List Nat))
    (num_processes : Nat) : Nat × List (String × Nat) :=
  match find_pdf_files fs input_path with
  | Except.error _ => (0, [])
  | Except.ok pdf_file_paths =>
    if pdf_file_paths.isEmpty then
      (0, [])
    else
      let all_text :=
        (read_pdfs_in_parallel_sched extract pdf_file_paths sched).1
      if all_text.trim = "" then
        (0, [])
      else
        let raw_words := tokenize all_text.toLower
        let excluded_set := excluded_words.map String.toLower
        pipeline_core detectRaw raw_words excluded_set target_lang_codes
          min_freq max_freq exact_freqs num_processes

/-! ### Spec-side definitions (for refinement-style statements) -/

/-- Spec §4.3 `LanguageClassifier.classify`: words shorter than 3 characters
are rejected without consulting the detector; otherwise the best-effort
answer of the detector, with failures mapped to "no classification". -/
def classify (detectRaw : String → Except String String) (word : String) :
    Option String :=
  if word.length < 3 then none else _detect_language_cached detectRaw word

/-- The per-word acceptance predicate of spec §4.4 (`ChunkFilter`): not
excluded, length ≥ 2, and, when the target list is non-empty, classified to a
language in the target list. -/
def specKeeps (detectRaw : String → Except String String)
    (excluded : List String) (targets : Option (List String)) (w : String) :
    Bool :=
  !excluded.contains w && decide (2 ≤ w.length) &&
    (match targets with
     | none => true
     | some ts =>
       ts.isEmpty ||
         (match classify detectRaw w with
          | some c => ts.contains c
          | none => false))

/-! ### Helper lemmas -/

/-- The function `filter_word_by_language` agrees with membership of the spec-side
`classify` result in the target list. -/
theorem filter_word_by_language_eq_classify
    (d : String → Except String String) (w : String) (ts : List String) :
    filter_word_by_language d w ts =
      (match classify d w with
       | some c => ts.contains c
       | none => false) := by
  unfold filter_word_by_language classify
  by_cases h : w.length < 3
  · simp [h]
  · simp only [if_neg h]
    cases _detect_language_cached d w <;> rfl

/-- The word-filtering loop is the filter of the spec-side per-word
predicate. -/
theorem filter_word_list_eq_filter (d : String → Except String String)
    (l ex : List String) (tg : Option (List String)) :
    filter_word_list d l ex tg = l.filter (specKeeps d ex tg) := by
  induction l with
  | nil => rfl
  | cons w rest ih =>
    rw [List.filter_cons]
    unfold filter_word_list
    by_cases h1 : ex.contains w ∨ w.length < 2
    · rw [if_pos h1, ih]
      have hk : specKeeps d ex tg w = false := by
        unfold specKeeps
        rcases h1 with h | h
        · have hm : w ∈ ex := by simpa using h
          simp [hm]
        · simp [Nat.not_le.mpr h]
      simp [hk]
    · rw [if_neg h1]
      push_neg at h1
      obtain ⟨hex0, hlen⟩ := h1
      have hex : w ∉ ex := by simpa using hex0
      by_cases h2 :
          (hasLangFilter tg &&
            !filter_word_by_language d w (tg.getD [])) = true
      · rw [if_pos h2, ih]
        have hk : specKeeps d ex tg w = false := by
          obtain ⟨hl, hnf⟩ :
              hasLangFilter tg = true ∧
                (!filter_word_by_language d w (tg.getD [])) = true := by
            simpa using h2
          cases tg with
          | none => simp [hasLangFilter] at hl
          | some ts =>
            have hne : ts.isEmpty = false := by
              simpa [hasLangFilter] using hl
            have hf : filter_word_by_language d w ts = false := by
              simpa using hnf
            rw [filter_word_by_language_eq_classify] at hf
            have hf2 : (match classify d w with
                | some c => decide (c ∈ ts)
                | none => false) = false := by
              cases hcl : classify d w with
              | none => rfl
              | some c =>
                rw [hcl] at hf
                simpa using hf
            unfold specKeeps
            simp [hne, hf2]
        simp [hk]
      · rw [if_neg h2, ih]
        have hk : specKeeps d ex tg w = true := by
          unfold specKeeps
          cases tg with
          | none => simp [hex, hlen]
          | some ts =>
            by_cases hts : ts.isEmpty
            · simp [hex, hlen, hts]
            · have hf : filter_word_by_language d w ts = true := by
                have hl : hasLangFilter (some ts) = true := by
                  simp [hasLangFilter, hts]
                simpa [hl] using h2
              rw [filter_word_by_language_eq_classify] at hf
              have hf2 : (match classify d w with
                  | some c => decide (c ∈ ts)
                  | none => false) = true := by
                cases hcl : classify d w with
                | none =>
                  rw [hcl] at hf
                  exact absurd hf (by simp)
                | some c =>
                  rw [hcl] at hf
                  simpa using hf
              simp [hex, hlen, hf2]
        simp [hk]

/-- Filtering distributes over list concatenation. -/
theorem filter_word_list_append (d : String → Except String String)
    (l₁ l₂ ex : List String) (tg : Option (List String)) :
    filter_word_list d (l₁ ++ l₂) ex tg =
      filter_word_list d l₁ ex tg ++ filter_word_list d l₂ ex tg := by
  simp [filter_word_list_eq_filter, List.filter_append]

/-- The function `chunksOfAux` on the empty list yields no chunks, whatever the fuel. -/
theorem chunksOfAux_nil (fuel cs : Nat) : chunksOfAux fuel cs [] = [] := by
  cases fuel <;> rfl

/-- With enough fuel, flattening the chunks restores the original list. -/
theorem chunksOfAux_flatten (cs : Nat) :
    ∀ (fuel : Nat) (l : List String), l.length ≤ fuel →
      (chunksOfAux fuel cs l).flatten = l := by
  intro fuel
  induction fuel with
  | zero =>
    intro l hl
    have : l = [] := List.eq_nil_of_length_eq_zero (Nat.le_zero.mp hl)
    subst this
    rfl
  | succ f ih =>
    intro l hl
    cases l with
    | nil => rfl
    | cons a t =>
      simp only [chunksOfAux, List.flatten_cons]
      rw [ih]
      · rw [List.cons_append, List.take_append_drop]
      · have hdrop := List.length_drop (cs - 1) t
        simp only [List.length_cons] at hl
        omega

/-- Flattening the chunk partition restores the word list. -/
theorem word_chunks_flatten (l : List String) (w : Nat) :
    (word_chunks l w).flatten = l :=
  chunksOfAux_flatten _ _ _ (Nat.le_refl _)

/-- Every chunk is nonempty and no longer than the chunk size. -/
theorem chunksOfAux_length_bounds (cs : Nat) (hcs : 1 ≤ cs) :
    ∀ (fuel : Nat) (l c : List String), c ∈ chunksOfAux fuel cs l →
      0 < c.length ∧ c.length ≤ cs := by
  intro fuel
  induction fuel with
  | zero => intro l c hc; simp [chunksOfAux] at hc
  | succ f ih =>
    intro l c hc
    cases l with
    | nil => simp [chunksOfAux] at hc
    | cons a t =>
      simp only [chunksOfAux, List.mem_cons] at hc
      rcases hc with hc | hc
      · subst hc
        simp only [List.length_cons, List.length_take]
        omega
      · exact ih _ _ hc

/-- All chunks except possibly the last have length exactly the chunk size. -/
theorem chunksOfAux_dropLast_length (cs : Nat) (hcs : 1 ≤ cs) :
    ∀ (fuel : Nat) (l : List String), l.length ≤ fuel →
      ∀ c ∈ (chunksOfAux fuel cs l).dropLast, c.length = cs := by
  intro fuel
  induction fuel with
  | zero =>
    intro l hl c hc
    have : l = [] := List.eq_nil_of_length_eq_zero (Nat.le_zero.mp hl)
    subst this
    simp [chunksOfAux] at hc
  | succ f ih =>
    intro l hl c hc
    cases l with
    | nil => simp [chunksOfAux] at hc
    | cons a t =>
      simp only [chunksOfAux] at hc
      by_cases hrest : chunksOfAux f cs (List.drop (cs - 1) t) = []
      · rw [hrest] at hc
        simp at hc
      · rw [List.dropLast_cons_of_ne_nil hrest, List.mem_cons] at hc
        rcases hc with hc | hc
        · subst hc
          have hne : List.drop (cs - 1) t ≠ [] := by
            intro h
            rw [h, chunksOfAux_nil] at hrest
            exact hrest rfl
          have hlt : cs - 1 < t.length := by
            by_contra hge
            rw [Nat.not_lt] at hge
            exact hne (List.drop_eq_nil_of_le hge)
          simp only [List.length_cons, List.length_take]
          omega
        · apply ih (List.drop (cs - 1) t) _ c hc
          have hdrop := List.length_drop (cs - 1) t
          simp only [List.length_cons] at hl
          omega

/-- Membership after folding `foStep`. -/
theorem foldl_foStep_mem :
    ∀ (ws acc : List String) (x : String),
      x ∈ ws.foldl foStep acc ↔ x ∈ acc ∨ x ∈ ws := by
  intro ws
  induction ws with
  | nil => simp
  | cons w t ih =>
    intro acc x
    rw [List.foldl_cons, ih]
    unfold foStep
    by_cases h : acc.contains w
    · have hw : w ∈ acc := by simpa using h
      rw [if_pos h]
      simp only [List.mem_cons]
      constructor
      · rintro (hx | hx)
        · exact Or.inl hx
        · exact Or.inr (Or.inr hx)
      · rintro (hx | hx | hx)
        · exact Or.inl hx
        · exact Or.inl (hx ▸ hw)
        · exact Or.inr hx
    · rw [if_neg h]
      simp only [List.mem_append, List.mem_singleton, List.mem_cons]
      tauto

/-- Folding `foStep` preserves distinctness. -/
theorem foldl_foStep_nodup :
    ∀ (ws acc : List String), acc.Nodup → (ws.foldl foStep acc).Nodup := by
  intro ws
  induction ws with
  | nil => intro acc h; simpa using h
  | cons w t ih =>
    intro acc h
    rw [List.foldl_cons]
    apply ih
    unfold foStep
    by_cases hw : acc.contains w
    · rwa [if_pos hw]
    · rw [if_neg hw]
      have : w ∉ acc := by simpa using hw
      simp [List.nodup_append, h, this]

/-- The keys of `count_frequencies` are distinct. -/
theorem firstOccurrences_nodup (ws : List String) :
    (firstOccurrences ws).Nodup :=
  foldl_foStep_nodup ws [] (by simp)

/-- The keys of `count_frequencies` are exactly the words of the list. -/
theorem firstOccurrences_mem (ws : List String) (x : String) :
    x ∈ firstOccurrences ws ↔ x ∈ ws := by
  unfold firstOccurrences
  rw [foldl_foStep_mem]
  simp

/-- The values of `count_frequencies` sum to the length of the word list:
every word is tallied exactly once. -/
theorem sumValues_count_frequencies (ws : List String) :
    sumValues (count_frequencies ws) = ws.length := by
  unfold sumValues count_frequencies
  rw [List.map_map]
  have hmap : (Prod.snd ∘ fun w => (w, ws.count w)) = fun w => ws.count w := rfl
  rw [hmap]
  have h1 : (firstOccurrences ws).Nodup := firstOccurrences_nodup ws
  calc ((firstOccurrences ws).map fun w => ws.count w).sum
      = ∑ a ∈ (firstOccurrences ws).toFinset, ws.count a :=
        (List.sum_toFinset _ h1).symm
    _ = ∑ a ∈ ws.toFinset, ws.count a := by
        apply Finset.sum_congr _ (fun _ _ => rfl)
        ext a
        simp [firstOccurrences_mem]
    _ = ws.length := List.sum_toFinset_count_eq_length ws

/-- Processing one file appends the successful extraction (if any). -/
theorem read_single_pdf_texts (extract : String → Except String String)
    (p : String) (st : IngestState) :
    (read_single_pdf extract p st).texts =
      st.texts ++ (extract p).toOption.toList := by
  unfold read_single_pdf
  cases extract p <;> simp [Except.toOption]

/-- Processing one file advances the counter exactly once, success or not. -/
theorem read_single_pdf_counter (extract : String → Except String String)
    (p : String) (st : IngestState) :
    (read_single_pdf extract p st).counter = st.counter + 1 := by
  unfold read_single_pdf
  cases extract p <;> rfl

/-- The I/O fold collects exactly the successful extractions (in schedule
order) and advances the counter once per scheduled file. -/
theorem read_foldl_spec (extract : String → Except String String)
    (paths : List String) :
    ∀ (sched : List Nat) (st : IngestState),
      (sched.foldl
          (fun st i => read_single_pdf extract (paths.getD i "") st) st).texts
          = st.texts ++ ((sched.map fun i => paths.getD i "").filterMap
              fun p => (extract p).toOption) ∧
      (sched.foldl
          (fun st i => read_single_pdf extract (paths.getD i "") st) st).counter
          = st.counter + sched.length := by
  intro sched
  induction sched with
  | nil => intro st; simp
  | cons i t ih =>
    intro st
    rw [List.foldl_cons]
    obtain ⟨h1, h2⟩ := ih (read_single_pdf extract (paths.getD i "") st)
    constructor
    · rw [h1, read_single_pdf_texts, List.map_cons, List.filterMap_cons,
        List.append_assoc]
      cases extract (paths.getD i "") <;> simp [Except.toOption]
    · rw [h2, read_single_pdf_counter, List.length_cons]
      omega

/-- Chunking, filtering per chunk and flattening in chunk order equals one
sequential filter pass. -/
theorem parallel_filtered_words_eq (d : String → Except String String)
    (raw ex : List String) (tg : Option (List String)) (n : Nat) :
    parallel_filtered_words d raw ex tg n = filter_word_list d raw ex tg := by
  unfold parallel_filtered_words
  have hgen : ∀ chunks : List (List String),
      (chunks.map fun c => filter_word_list d c ex tg).flatten =
        filter_word_list d chunks.flatten ex tg := by
    intro chunks
    induction chunks with
    | nil => rfl
    | cons c cs ih =>
      simp [List.flatten_cons, filter_word_list_append, ih]
  rw [hgen, word_chunks_flatten]

/-- When no frequency filter is active, Phase 3 is the identity. -/
theorem apply_frequency_filter_inactive (wf : List (String × Nat))
    (mn mx : Option Int) (ef : Option (List Nat))
    (h : freqFilterActive mn mx ef = false) :
    apply_frequency_filter wf mn mx ef = wf := by
  cases mn with
  | some m => simp [freqFilterActive] at h
  | none =>
    cases mx with
    | some m => simp [freqFilterActive] at h
    | none =>
      cases ef with
      | none => rfl
      | some es =>
        have he : es.isEmpty = true := by
          simpa [freqFilterActive] using h
        unfold apply_frequency_filter
        simp [he]

/-- Phase 3 only removes entries. -/
theorem apply_frequency_filter_subset (wf : List (String × Nat))
    (mn mx : Option Int) (ef : Option (List Nat)) (p : String × Nat)
    (hp : p ∈ apply_frequency_filter wf mn mx ef) : p ∈ wf := by
  unfold apply_frequency_filter at hp
  split at hp
  · unfold filter_by_exact_frequency at hp
    exact List.mem_of_mem_filter hp
  · split at hp
    · unfold filter_by_frequency_range at hp
      exact List.mem_of_mem_filter hp
    · exact hp

/-- With a non-empty target-language list, every survivor of the word filter
is at least 3 characters long (the classifier rejects shorter words). -/
theorem filter_word_list_lang_min_length (d : String → Except String String)
    (ex ts : List String) (hts : ts ≠ []) :
    ∀ (l : List String) (w : String),
      w ∈ filter_word_list d l ex (some ts) → 3 ≤ w.length := by
  intro l
  induction l with
  | nil => intro w hw; simp [filter_word_list] at hw
  | cons a t ih =>
    intro w hw
    unfold filter_word_list at hw
    by_cases h1 : ex.contains a ∨ a.length < 2
    · rw [if_pos h1] at hw
      exact ih w hw
    · rw [if_neg h1] at hw
      by_cases h2 : (hasLangFilter (some ts) &&
          !filter_word_by_language d a ((some ts).getD [])) = true
      · rw [if_pos h2] at hw
        exact ih w hw
      · rw [if_neg h2] at hw
        rcases List.mem_cons.mp hw with hww | hww
        · subst hww
          have hl : hasLangFilter (some ts) = true := by
            simp [hasLangFilter, List.isEmpty_iff, hts]
          have hf : filter_word_by_language d w ts = true := by
            cases hb : filter_word_by_language d w ts with
            | false => exact absurd (by simp [hl, hb]) h2
            | true => rfl
          by_contra hlen
          rw [Nat.not_le] at hlen
          unfold filter_word_by_language at hf
          rw [if_pos hlen] at hf
          exact Bool.false_ne_true hf
        · exact ih w hww

/-! ### Claim theorems -/

/-- C2: for every word list and every worker count, the parallel filtering
stage (chunk, filter each chunk with `filter_word_list`, concatenate in
original chunk order) produces exactly the output of one `filter_word_list`
pass over the whole list; in particular the output is independent of the
worker-pool size. -/
theorem C2_parallel_filter_equivalence (d : String → Except String String)
    (raw ex : List String) (tg : Option (List String)) (n m : Nat) :
    parallel_filtered_words d raw ex tg n = filter_word_list d raw ex tg ∧
    parallel_filtered_words d raw ex tg n =
      parallel_filtered_words d raw ex tg m :=
  ⟨parallel_filtered_words_eq d raw ex tg n,
    (parallel_filtered_words_eq d raw ex tg n).trans
      (parallel_filtered_words_eq d raw ex tg m).symm⟩

/-- C3 counterexample: with 4 words and 2 workers the code chunks with size
`max 1 (4 / 2 + 1) = 3`, giving chunk lengths `[3, 1]`, so the non-last chunk
does NOT have the claimed size `ceil(4 / 2) = (4 + 2 - 1) / 2 = 2`. -/
theorem C3_chunk_size_counterexample :
    (word_chunks ["w1", "w2", "w3", "w4"] 2).map List.length = [3, 1] ∧
    ¬ ∀ c ∈ (word_chunks ["w1", "w2", "w3", "w4"] 2).dropLast,
        c.length = (4 + 2 - 1) / 2 := by
  decide

/-- C3 (amended): for every word list of length n and worker count w, the list
is partitioned into contiguous chunks of size `max 1 (n / w + 1)`
(floor-division plus one), with only the last chunk possibly shorter; a
zero-length word list yields zero chunks; this chunk size equals
`ceil(n / w)` exactly in the case that w ≥ 1 does not divide n. -/
theorem C3_word_chunks_spec (l : List String) (w : Nat) :
    (word_chunks l w).flatten = l ∧
    (∀ c ∈ (word_chunks l w).dropLast,
      c.length = max 1 (l.length / w + 1)) ∧
    (∀ c ∈ word_chunks l w,
      0 < c.length ∧ c.length ≤ max 1 (l.length / w + 1)) ∧
    (l = [] → word_chunks l w = []) ∧
    (1 ≤ w →
      (max 1 (l.length / w + 1) = (l.length + w - 1) / w ↔
        ¬ w ∣ l.length)) := by
  refine ⟨word_chunks_flatten l w, ?_, ?_, ?_, ?_⟩
  · intro c hc
    exact chunksOfAux_dropLast_length _ (le_max_left 1 _) _ l (Nat.le_refl _)
      c hc
  · intro c hc
    exact chunksOfAux_length_bounds _ (le_max_left 1 _) _ l c hc
  · intro h
    subst h
    rfl
  · intro hw
    have hbwd : w ∣ l.length →
        max 1 (l.length / w + 1) ≠ (l.length + w - 1) / w := by
      intro hdvd
      obtain ⟨q, hq⟩ := hdvd
      rw [hq]
      have h1 : w * q / w = q := Nat.mul_div_cancel_left q hw
      have h2 : w * q + w - 1 = (w - 1) + w * q := by omega
      have h3 : (w * q + w - 1) / w = q := by
        have hlt : w - 1 < w := by omega
        rw [h2, Nat.add_mul_div_left _ _ hw, Nat.div_eq_of_lt hlt]
        omega
      rw [h1, h3, max_eq_right (Nat.le_add_left 1 q)]
      omega
    constructor
    · intro heq hdvd
      exact hbwd hdvd heq
    · intro hnd
      have hr : l.length % w ≠ 0 := fun h => hnd (Nat.dvd_of_mod_eq_zero h)
      have hrw : l.length % w < w := Nat.mod_lt _ hw
      have hq := Nat.div_add_mod l.length w
      have hmul : w * (l.length / w + 1) = w * (l.length / w) + w := by ring
      have heq : l.length + w - 1 =
          (l.length % w - 1) + w * (l.length / w + 1) := by omega
      have hlt : l.length % w - 1 < w := by omega
      rw [max_eq_right (Nat.le_add_left 1 _), heq,
        Nat.add_mul_div_left _ _ hw, Nat.div_eq_of_lt hlt]
      omega

/-- C3 witness: a zero-length list yields zero chunks, and for n = 3, w = 2
(where 2 does not divide 3) the chunk size equals the ceiling. -/
theorem C3_word_chunks_spec_witness :
    word_chunks ([] : List String) 2 = [] ∧
    max 1 (3 / 2 + 1) = (3 + 2 - 1) / 2 :=
  ⟨(C3_word_chunks_spec [] 2).2.2.2.1 rfl,
    ((C3_word_chunks_spec ["a", "b", "c"] 2).2.2.2.2 (by decide)).mpr
      (by decide)⟩

/-- C4: `filter_word_list` keeps exactly the words that are not excluded, have
length ≥ 2 and, when a non-empty target list is given, are classified to a
language in it; the output is a sublist of the input (relative order
preserved); the concrete example of the spec holds. -/
theorem C4_filter_word_list_spec (d : String → Except String String)
    (l ex : List String) (tg : Option (List String)) :
    filter_word_list d l ex tg = l.filter (specKeeps d ex tg) ∧
    (filter_word_list d l ex tg).Sublist l ∧
    filter_word_list d ["the", "cat", "a", "xx"] ["the"] none =
      ["cat", "xx"] := by
  refine ⟨filter_word_list_eq_filter d l ex tg, ?_, ?_⟩
  · rw [filter_word_list_eq_filter]
    exact List.filter_sublist l
  · rfl

/-- C5: the range frequency filter keeps exactly the entries whose count lies
between the bounds, both inclusive (`none` = positive infinity above); when
only one bound reaches Phase 3, the other defaults to 0 resp. infinity. -/
theorem C5_frequency_range_spec (wf : List (String × Nat)) (mn mx : Int)
    (p : String × Nat) :
    (p ∈ filter_by_frequency_range wf mn (some mx) ↔
      p ∈ wf ∧ mn ≤ (p.2 : Int) ∧ (p.2 : Int) ≤ mx) ∧
    (p ∈ filter_by_frequency_range wf mn none ↔
      p ∈ wf ∧ mn ≤ (p.2 : Int)) ∧
    apply_frequency_filter wf none (some mx) none =
      filter_by_frequency_range wf 0 (some mx) ∧
    apply_frequency_filter wf (some mn) none none =
      filter_by_frequency_range wf mn none := by
  refine ⟨?_, ?_, rfl, rfl⟩ <;>
    simp [filter_by_frequency_range, List.mem_filter, and_assoc]

/-- C6: the exact frequency filter keeps exactly the entries whose count is a
member of the (de-duplicated) value list; the concrete example of the spec
holds. -/
theorem C6_exact_frequency_spec (wf : List (String × Nat))
    (exact_freqs : List Nat) (p : String × Nat) :
    (p ∈ filter_by_exact_frequency wf exact_freqs ↔
      p ∈ wf ∧ p.2 ∈ exact_freqs) ∧
    filter_by_exact_frequency [("a", 3), ("b", 5), ("c", 3)] [3] =
      [("a", 3), ("c", 3)] := by
  constructor
  · simp [filter_by_exact_frequency, List.mem_filter, List.mem_dedup]
  · rfl

/-- C1 counterexample: with an active range filter (`min_freq = 0`, removing
nothing), the returned total still equals the sum of the values of the
returned map, refuting "total equals the sum of values exactly when no frequency
filter is active". -/
theorem C1_total_count_counterexample :
    freqFilterActive (some 0) none none = true ∧
    (pipeline_core (fun _ => Except.error "") ["aa", "aa"] [] none
        (some 0) none none 1).1 =
      sumValues (pipeline_core (fun _ => Except.error "") ["aa", "aa"] [] none
        (some 0) none none 1).2 := by
  constructor
  · rfl
  · decide

/-- C1 (amended): the returned total is the length of the list produced by the
parallel filter phase, independent of the frequency-filter parameters; and
whenever no frequency filter is active, the total equals the sum of the values
of the returned frequency map (an active filter that removes nothing can also
leave the two equal, so the converse does not hold). -/
theorem C1_total_count_spec (d : String → Except String String)
    (raw ex : List String) (tg : Option (List String))
    (mn mx : Option Int) (ef : Option (List Nat)) (n : Nat) :
    (pipeline_core d raw ex tg mn mx ef n).1 =
      (parallel_filtered_words d raw ex tg n).length ∧
    (freqFilterActive mn mx ef = false →
      (pipeline_core d raw ex tg mn mx ef n).1 =
        sumValues (pipeline_core d raw ex tg mn mx ef n).2) := by
  constructor
  · rfl
  · intro h
    have e2 : (pipeline_core d raw ex tg mn mx ef n).2 =
        apply_frequency_filter
          (count_frequencies (parallel_filtered_words d raw ex tg n))
          mn mx ef := rfl
    rw [e2, apply_frequency_filter_inactive _ _ _ _ h,
      sumValues_count_frequencies]
    rfl

/-- C1 witness: with no frequency filter the two quantities coincide on a
concrete run. -/
theorem C1_total_count_spec_witness :
    (pipeline_core (fun _ => Except.error "") ["aa", "bb", "aa"] [] none
        none none none 2).1 =
      sumValues (pipeline_core (fun _ => Except.error "") ["aa", "bb", "aa"]
        [] none none none none 2).2 :=
  (C1_total_count_spec (fun _ => Except.error "") ["aa", "bb", "aa"] [] none
    none none none 2).2 rfl

/-- C7: a discovery error (path neither a `.pdf` file nor a directory), an
empty discovery result, or an empty/whitespace-only corpus all yield the empty
result `(0, {})`; the embedding is total, so no exception escapes. -/
theorem C7_empty_result_spec (fs : FileSystem)
    (extract d : String → Except String String) (sched : List Nat)
    (input_path : String) (ex : List String) (tg : Option (List String))
    (mn mx : Option Int) (ef : Option (List Nat)) (n : Nat)
    (h : ((fs.isFile input_path &&
            (input_path.toLower).endsWith ".pdf") = false ∧
          fs.isDir input_path = false) ∨
         find_pdf_files fs input_path = Except.ok [] ∨
         (∃ ps, find_pdf_files fs input_path = Except.ok ps ∧
            (read_pdfs_in_parallel_sched extract ps sched).1.trim = "")) :
    calculate_word_frequency_and_filter fs extract d sched input_path ex tg
      mn mx ef n = (0, []) := by
  unfold calculate_word_frequency_and_filter
  rcases h with ⟨h1, h2⟩ | h | ⟨ps, hps, htrim⟩
  · have herr : find_pdf_files fs input_path =
        Except.error ("Invalid input path or file type: " ++ input_path) := by
      unfold find_pdf_files
      rw [h1, h2]
      simp
    rw [herr]
  · rw [h]
    simp
  · rw [hps]
    cases ps with
    | nil => simp
    | cons p pt =>
      simp only [List.isEmpty_cons, Bool.false_eq_true, if_false]
      simp [htrim]

/-- C7 witness: a path that the file system reports as neither file nor
directory yields `(0, {})`. -/
theorem C7_empty_result_spec_witness :
    calculate_word_frequency_and_filter
      ⟨fun _ => false, fun _ => false, fun _ => []⟩
      (fun _ => Except.error "") (fun _ => Except.error "") [] "nope" []
      none none none none 1 = (0, []) :=
  C7_empty_result_spec _ _ _ _ _ _ _ _ _ _ _ (Or.inl ⟨rfl, rfl⟩)

/-- C8: words shorter than 3 characters are rejected without consulting the
detector (the result is `false` and is independent of which detector is
installed), and a detector failure (exception) yields no classification; the
embedding is a total function, so classification never raises. -/
theorem C8_classifier_error_spec (d₁ d₂ : String → Except String String)
    (word : String) (ts : List String) (e : String) :
    (word.length < 3 →
      filter_word_by_language d₁ word ts = false ∧
      filter_word_by_language d₁ word ts =
        filter_word_by_language d₂ word ts) ∧
    (d₁ word = Except.error e → _detect_language_cached d₁ word = none) := by
  constructor
  · intro h
    constructor <;> simp [filter_word_by_language, h]
  · intro h
    unfold _detect_language_cached
    rw [h]

/-- C8 witness: a 2-character word is rejected (even with a failing detector),
and a raising detector yields no classification on a 3-character word. -/
theorem C8_classifier_error_spec_witness :
    filter_word_by_language (fun _ => Except.error "x") "ab" ["en"] = false ∧
    _detect_language_cached (fun _ => Except.error "x") "abc" = none :=
  ⟨((C8_classifier_error_spec (fun _ => Except.error "x")
      (fun _ => Except.ok "en") "ab" ["en"] "x").1 (by decide)).1,
    (C8_classifier_error_spec (fun _ => Except.error "x")
      (fun _ => Except.ok "en") "abc" ["en"] "x").2 rfl⟩

/-- C9: for every completion schedule (permutation of the file indices), the
returned text is the space-joined concatenation of exactly the successfully
extracted per-file texts (failed files contribute nothing), the progress
counter nevertheless reaches the total file count, and an empty path list
returns `("", 0)` immediately. -/
theorem C9_read_pdfs_spec (extract : String → Except String String)
    (paths : List String) (sched : List Nat)
    (h : sched.Perm (List.range paths.length)) :
    (read_pdfs_in_parallel_sched extract paths sched).1 =
      String.intercalate " " ((sched.map fun i => paths.getD i "").filterMap
        fun p => (extract p).toOption) ∧
    (read_pdfs_in_parallel_sched extract paths sched).2 = paths.length ∧
    (paths = [] → read_pdfs_in_parallel_sched extract paths sched =
      ("", 0)) := by
  have hlen : sched.length = paths.length := by
    simpa using h.length_eq
  by_cases hp : paths.isEmpty
  · have hpe : paths = [] := by simpa using hp
    subst hpe
    have hs : sched = [] := by
      have : sched.length = 0 := by simpa using hlen
      simpa using this
    subst hs
    exact ⟨rfl, rfl, fun _ => rfl⟩
  · obtain ⟨ht, hc⟩ := read_foldl_spec extract paths sched ⟨[], 0⟩
    unfold read_pdfs_in_parallel_sched
    rw [if_neg (by simpa using hp)]
    refine ⟨?_, ?_, ?_⟩
    · simpa using congrArg (String.intercalate " ") ht
    · simpa [hlen] using hc
    · intro hpe
      exact absurd hpe (by simpa using hp)

/-- C9 witness: one failing and one succeeding file, completed out of
submission order; the counter reaches 2 and the text is the single successful
extraction. -/
theorem C9_read_pdfs_spec_witness :
    (read_pdfs_in_parallel_sched
      (fun p => if p = "bad.pdf" then Except.error "corrupt"
        else Except.ok ("text of " ++ p))
      ["bad.pdf", "good.pdf"] [1, 0]).2 = 2 :=
  (C9_read_pdfs_spec
    (fun p => if p = "bad.pdf" then Except.error "corrupt"
      else Except.ok ("text of " ++ p))
    ["bad.pdf", "good.pdf"] [1, 0] (by decide)).2.1

/-- C10: with a non-empty target-language list, every word surviving
`filter_word_list` — and hence every word in the final frequency map — has
length ≥ 3, strengthening the minimum-length invariant of the spec from 2 to 3. -/
theorem C10_lang_filter_min_length (d : String → Except String String)
    (l ex ts raw : List String) (mn mx : Option Int) (ef : Option (List Nat))
    (n : Nat) (w : String) (c : Nat) (hts : ts ≠ []) :
    (w ∈ filter_word_list d l ex (some ts) → 3 ≤ w.length) ∧
    ((w, c) ∈ (pipeline_core d raw ex (some ts) mn mx ef n).2 →
      3 ≤ w.length) := by
  constructor
  · exact filter_word_list_lang_min_length d ex ts hts l w
  · intro hw
    have hsub : (w, c) ∈
        count_frequencies (parallel_filtered_words d raw ex (some ts) n) :=
      apply_frequency_filter_subset _ mn mx ef _ hw
    unfold count_frequencies at hsub
    obtain ⟨k, hk, hkeq⟩ := List.mem_map.mp hsub
    have hwk : w = k := (congrArg Prod.fst hkeq).symm
    subst hwk
    have hmem : w ∈ parallel_filtered_words d raw ex (some ts) n :=
      (firstOccurrences_mem _ w).mp hk
    rw [parallel_filtered_words_eq] at hmem
    exact filter_word_list_lang_min_length d ex ts hts raw w hmem

/-- C10 witness: the surviving word "cat" has length ≥ 3. -/
theorem C10_lang_filter_min_length_witness :
    "cat" ∈ filter_word_list (fun _ => Except.ok "en") ["cat"] []
      (some ["en"]) ∧
    3 ≤ "cat".length :=
  ⟨by decide,
    (C10_lang_filter_min_length (fun _ => Except.ok "en") ["cat"] [] ["en"]
      [] none none none 1 "cat" 0 (by decide)).1 (by decide)⟩

end PdfWordFrequency
